import Mathlib

/-!
Verification of the frugal serialization-runtime core: the growable `Bitmap` and
the `StackMap`/`StackMapBuilder` from `internal/rt/stackmap.go`, the iterative
dead-code-elimination pass `TDCE.Apply` over an SSA control-flow graph, and the
`Link`/`SetLinker` backend dispatch, embedded shallowly in Lean.
-/

/-! ## Bitmap and StackMap (`internal/rt/stackmap.go`) -/

/-- Bit `k` of the byte `b`: the remainder-of-two test `b / 2^k % 2 = 1`, which is
`b.testBit k` (`nthBit_eq_testBit` below) but evaluates inside the kernel. -/
def nthBit (b k : Nat) : Bool := decide (b / 2 ^ k % 2 = 1)

/-- Byte update `b |= 1 << k` (as in `Bitmap.mark`) written arithmetically over
`Nat` so that it evaluates inside the kernel; `orBit_eq_lor` below proves it equal
to `b ||| (1 <<< k)`. -/
def orBit (b k : Nat) : Nat := b % 2 ^ k + 2 ^ k + 2 ^ (k + 1) * (b / 2 ^ (k + 1))

/-- Byte update `b &^= 1 << k` (bit-clear, as in `Bitmap.mark`) written
arithmetically over `Nat`; `andNotBit_eq_ldiff` below proves it equal to
`Nat.ldiff b (1 <<< k)`. -/
def andNotBit (b k : Nat) : Nat := b % 2 ^ k + 2 ^ (k + 1) * (b / 2 ^ (k + 1))

/-- `Bitmap`: logical bit count `N` over the backing byte slice `B`. Counts and
bytes are modelled as `Nat` (Go `int` indices here are never negative in any
reachable state, and bytes stay below `2^8`). -/
structure Bitmap where
  N : Nat
  B : List Nat
deriving DecidableEq

/-- `Bitmap.grow`: append one zero byte exactly when the bit count has reached the
byte capacity (`self.N >= len(self.B) * 8`). -/
def Bitmap.grow (bm : Bitmap) : Bitmap :=
  if bm.N ≥ bm.B.length * 8 then { bm with B := bm.B ++ [0] } else bm

/-- `Bitmap.mark`: set (`bv ≠ 0`) or clear (`bv = 0`) bit `i % 8` of byte `i / 8`.
`none` models the Go runtime panic raised when the byte index `i / 8` falls
outside the backing slice; the two `some` branches are the source's
`self.B[i/8] |= 1 << (i%8)` and `self.B[i/8] &^= 1 << (i%8)`. -/
def Bitmap.mark (bm : Bitmap) (i : Nat) (bv : Int) : Option Bitmap :=
  if i / 8 < bm.B.length then
    if bv ≠ 0 then
      some { bm with B := bm.B.set (i / 8) (orBit (bm.B.getD (i / 8) 0) (i % 8)) }
    else
      some { bm with B := bm.B.set (i / 8) (andNotBit (bm.B.getD (i / 8) 0) (i % 8)) }
  else
    none

/-- `Bitmap.Set`: `none` models the explicit `panic("bitmap: invalid bit position")`
taken when `i >= self.N`; otherwise delegate to `mark`. -/
def Bitmap.Set (bm : Bitmap) (i : Nat) (bv : Int) : Option Bitmap :=
  if i ≥ bm.N then none else bm.mark i bv

/-- `Bitmap.Append`: `grow`, `mark` the next logical bit, then increment `N`. -/
def Bitmap.Append (bm : Bitmap) (bv : Int) : Option Bitmap :=
  (bm.grow.mark bm.N bv).map fun b => { b with N := b.N + 1 }

/-- `Bitmap.AppendMany`: append `n` identical bits by iterating `Append`. -/
def Bitmap.AppendMany (bm : Bitmap) (n : Nat) (bv : Int) : Option Bitmap :=
  match n with
  | 0 => some bm
  | m + 1 => (bm.Append bv).bind fun b => b.AppendMany m bv

/-- Logical bit `i` of a bitmap: bit `i % 8` of byte `i / 8` (a missing byte reads
as `0`). -/
def Bitmap.bit (bm : Bitmap) (i : Nat) : Bool := nthBit (bm.B.getD (i / 8) 0) (i % 8)

/-- The reachable-state invariant of a bitmap built by appending: the backing
slice holds exactly `⌈N / 8⌉` bytes. -/
def Bitmap.packed (bm : Bitmap) : Prop := bm.B.length = (bm.N + 7) / 8

/-- Wrap-around conversion of a `Nat` to a signed 32-bit value, as Go's
`int32(n)` conversion in `StackMapBuilder.Build`. -/
def int32ofNat (n : Nat) : Int :=
  if n % 2 ^ 32 < 2 ^ 31 then ((n % 2 ^ 32 : Nat) : Int) else ((n % 2 ^ 32 : Nat) : Int) - 2 ^ 32

/-- `StackMap`: header fields `N` (bitmap count) and `L` (bit length), both Go
`int32`, followed by the packed bitmap bytes. -/
structure StackMap where
  N : Int
  L : Int
  B : List Nat
deriving DecidableEq

/-- `StackMapBuilder`: wraps the accumulating bitmap `b`. -/
structure StackMapBuilder where
  b : Bitmap
deriving DecidableEq

/-- `StackMapBuilder.Build`: allocate and populate the header as one bitmap of
`int32(self.b.N)` bits and copy the packed bytes into the tail. -/
def StackMapBuilder.Build (s : StackMapBuilder) : StackMap :=
  ⟨1, int32ofNat s.b.N, s.b.B⟩

/-- Packed bit `i` of a built stack map. -/
def StackMap.bit (m : StackMap) (i : Nat) : Bool := nthBit (m.B.getD (i / 8) 0) (i % 8)

/-- `StackMapBuilder.AddField`: append one bit, `1` when `ptr`. -/
def StackMapBuilder.AddField (s : StackMapBuilder) (ptr : Bool) : Option StackMapBuilder :=
  if ptr then (s.b.Append 1).map StackMapBuilder.mk
  else (s.b.Append 0).map StackMapBuilder.mk

/-- `StackMapBuilder.AddFields`: append `n` identical bits, `1` when `ptr`. -/
def StackMapBuilder.AddFields (s : StackMapBuilder) (n : Nat) (ptr : Bool) :
    Option StackMapBuilder :=
  if ptr then (s.b.AppendMany n 1).map StackMapBuilder.mk
  else (s.b.AppendMany n 0).map StackMapBuilder.mk

/-- Run a sequence of `AddField` calls on a builder. -/
def runAddFields : StackMapBuilder → List Bool → Option StackMapBuilder
  | s, [] => some s
  | s, ptr :: rest => (s.AddField ptr).bind fun t => runAddFields t rest

/-- One call made on a `StackMapBuilder`. -/
inductive BuilderOp where
  | field (ptr : Bool)
  | fields (n : Nat) (ptr : Bool)
deriving DecidableEq

/-- Execute one builder call. -/
def BuilderOp.run : BuilderOp → StackMapBuilder → Option StackMapBuilder
  | .field ptr, s => s.AddField ptr
  | .fields n ptr, s => s.AddFields n ptr

/-- Number of bits one builder call appends. -/
def BuilderOp.bits : BuilderOp → Nat
  | .field _ => 1
  | .fields n _ => n

/-- Run a sequence of `AddField`/`AddFields` calls on a builder. -/
def runBuilderOps : StackMapBuilder → List BuilderOp → Option StackMapBuilder
  | s, [] => some s
  | s, op :: ops => (op.run s).bind fun t => runBuilderOps t ops

/-- Total number of bits a sequence of builder calls appends. -/
def totalBuilderBits (ops : List BuilderOp) : Nat := (ops.map BuilderOp.bits).sum

/-- One call made on a `Bitmap`. -/
inductive BitOp where
  | append (bv : Int)
  | appendMany (n : Nat) (bv : Int)
deriving DecidableEq

/-- Execute one bitmap call. -/
def BitOp.run : BitOp → Bitmap → Option Bitmap
  | .append bv, bm => bm.Append bv
  | .appendMany n bv, bm => bm.AppendMany n bv

/-- Number of bits one bitmap call appends. -/
def BitOp.bits : BitOp → Nat
  | .append _ => 1
  | .appendMany n _ => n

/-- Run a sequence of `Append`/`AppendMany` calls on a bitmap. -/
def runBitOps : Bitmap → List BitOp → Option Bitmap
  | bm, [] => some bm
  | bm, op :: ops => (op.run bm).bind fun t => runBitOps t ops

/-- Total number of bits a sequence of bitmap calls appends. -/
def totalBits (ops : List BitOp) : Nat := (ops.map BitOp.bits).sum

/-! ## SSA model and the TDCE pass

The CFG, basic block, register and instruction types are boundary types the pass
consumes; they are not part of the packaged source files. -/

/-- Modelled from the spec: an SSA register — an opaque, value-comparable
identifier carrying a `Kind` (here the `kind` field); the distinguished
zero/sentinel registers are the ones of kind `K_zero`. -/
structure Reg where
  kind : Nat
  name : Nat
deriving DecidableEq

/-- Modelled from the spec: the sentinel register kind (`K_zero` in the source). -/
def K_zero : Nat := 0

/-- Modelled from the spec: `r.Zero()` returns the distinguished zero/sentinel
register, whose kind is `K_zero`. -/
def Reg.Zero (_ : Reg) : Reg := ⟨K_zero, 0⟩

/-- Modelled from the spec: a member of a basic block (Phi node, instruction, or
terminator). `hasDefs` / `hasUses` record whether the Go value implements the
`IrDefinitions` / `IrUsages` capability interface, and `defs` / `uses` are the
ordered register slots those capabilities expose. Phi nodes implement both
capabilities unconditionally (the pass calls `Definitions()` and `Usages()` on
them without a type assertion), so for entries of a block's `Phi` list the two
flags are ignored, exactly as in the pass. -/
structure IrNode where
  hasDefs : Bool
  defs : List Reg
  hasUses : Bool
  uses : List Reg
deriving DecidableEq

/-- Modelled from the spec: a basic block — ordered Phi list, ordered instruction
list, and exactly one terminator. -/
structure BasicBlock where
  Phi : List IrNode
  Ins : List IrNode
  Term : IrNode
deriving DecidableEq

/-- Modelled from the spec: a CFG, represented by the sequence of its blocks in
the order `cfg.PostOrder` visits them — every reachable block exactly once. No
phase of the pass depends on the particular visiting order. -/
abbrev CFG := List BasicBlock

/-- Registers an instruction or terminator declares: its `Definitions()` when it
implements `IrDefinitions`, nothing otherwise. -/
def insDefs (v : IrNode) : List Reg := if v.hasDefs then v.defs else []

/-- Registers an instruction or terminator reads: its `Usages()` when it
implements `IrUsages`, nothing otherwise. -/
def insUses (v : IrNode) : List Reg := if v.hasUses then v.uses else []

/-- Phase 1 contributions of one block to the `decl` set: all Phi definitions,
instruction definitions, and terminator definitions. -/
def blockDecls (bb : BasicBlock) : List Reg :=
  bb.Phi.flatMap (fun v => v.defs) ++ bb.Ins.flatMap insDefs ++ insDefs bb.Term

/-- Phase 2 contributions of one block: all Phi usages, instruction usages, and
terminator usages. -/
def blockUses (bb : BasicBlock) : List Reg :=
  bb.Phi.flatMap (fun v => v.uses) ++ bb.Ins.flatMap insUses ++ insUses bb.Term

/-- Every register slot value declared somewhere in the CFG. -/
def cfgDecls (cfg : CFG) : List Reg := cfg.flatMap blockDecls

/-- Every register read somewhere in the CFG. -/
def cfgUses (cfg : CFG) : List Reg := cfg.flatMap blockUses

/-- Membership in the `decl` map after phases 1 and 2: declared somewhere and
read nowhere. -/
def deadReg (cfg : CFG) (r : Reg) : Bool :=
  decide (r ∈ cfgDecls cfg) && !decide (r ∈ cfgUses cfg)

/-- Phase 3 guard on one register slot: the `decl` map still contains the slot's
register and its kind is not `K_zero`. -/
def rewrites (dead : Reg → Bool) (r : Reg) : Bool := dead r && decide (r.kind ≠ K_zero)

/-- Phase 3 action on one register slot: overwrite with `r.Zero()` when the guard
holds. -/
def rewriteReg (dead : Reg → Bool) (r : Reg) : Reg :=
  if rewrites dead r then r.Zero else r

/-- Phase 3 on a Phi node (definitions accessed unconditionally). -/
def rewritePhi (dead : Reg → Bool) (v : IrNode) : IrNode :=
  { v with defs := v.defs.map (rewriteReg dead) }

/-- Phase 3 on an instruction or terminator (only when it implements
`IrDefinitions`). -/
def rewriteIns (dead : Reg → Bool) (v : IrNode) : IrNode :=
  if v.hasDefs then { v with defs := v.defs.map (rewriteReg dead) } else v

/-- Phase 3 over one block. -/
def phase3Block (dead : Reg → Bool) (bb : BasicBlock) : BasicBlock :=
  ⟨bb.Phi.map (rewritePhi dead), bb.Ins.map (rewriteIns dead), rewriteIns dead bb.Term⟩

/-- Phase 3 over the CFG. -/
def phase3 (dead : Reg → Bool) (cfg : CFG) : CFG := cfg.map (phase3Block dead)

/-- Whether phase 3 rewrites at least one register slot; the round's `done` flag
is its negation. -/
def phase3Changed (dead : Reg → Bool) (cfg : CFG) : Bool :=
  cfg.any fun bb =>
    (bb.Phi.any fun v => v.defs.any (rewrites dead)) ||
    (bb.Ins.any fun v => (insDefs v).any (rewrites dead)) ||
    (insDefs bb.Term).any (rewrites dead)

/-- Phase 4 keep-condition for a Phi node: some declared register is not the
sentinel. A Phi with an empty `Definitions()` list is dropped — the inner loop
never runs, so the node is never appended to the rebuilt list. -/
def keepPhi (v : IrNode) : Bool := v.defs.any fun r => decide (r.kind ≠ K_zero)

/-- Phase 4 keep-condition for an instruction: kept when it does not implement
`IrDefinitions`, or its `Definitions()` list is empty, or some declared register
is not the sentinel. -/
def keepIns (v : IrNode) : Bool :=
  !v.hasDefs || v.defs.isEmpty || v.defs.any fun r => decide (r.kind ≠ K_zero)

/-- Phase 4 over one block: rebuild the Phi and instruction lists; the terminator
is always kept. -/
def phase4Block (bb : BasicBlock) : BasicBlock :=
  ⟨bb.Phi.filter keepPhi, bb.Ins.filter keepIns, bb.Term⟩

/-- Phase 4 over the CFG. -/
def phase4 (cfg : CFG) : CFG := cfg.map phase4Block

/-- One iteration of the outer loop of `TDCE.Apply`: phases 1–4. The second
component is the `done` flag: `true` exactly when phase 3 neutralized nothing
(phase 4 never touches the flag). -/
def tdceRound (cfg : CFG) : CFG × Bool :=
  (phase4 (phase3 (deadReg cfg) cfg), !phase3Changed (deadReg cfg) cfg)

/-- Number of non-sentinel declared register slots in the CFG; strictly decreases
on every round whose `done` flag is `false`. -/
def liveCount (cfg : CFG) : Nat := (cfgDecls cfg).countP fun r => decide (r.kind ≠ K_zero)

/-- The outer `for` loop of `TDCE.Apply`, with explicit fuel: run rounds until one
reports `done` (or the fuel runs out, which `tdce_terminates` shows cannot happen
from the fuel `Apply` supplies). -/
def applyLoop : Nat → CFG → CFG
  | 0, cfg => cfg
  | fuel + 1, cfg =>
    if (tdceRound cfg).2 then (tdceRound cfg).1 else applyLoop fuel (tdceRound cfg).1

/-- `TDCE.Apply`: iterate rounds to the fixed point. `liveCount cfg + 1` units of
fuel always suffice because each non-final round strictly decreases `liveCount`. -/
def TDCE.Apply (cfg : CFG) : CFG := applyLoop (liveCount cfg + 1) cfg

/-- Well-formed input CFG: no declared register slot already holds a sentinel
(zero-kind) register — sentinels are the pass's internal marker — and every Phi
node declares at least one register (its result), as the source IR's Phi type
does. -/
def WellFormed (cfg : CFG) : Prop :=
  (∀ r ∈ cfgDecls cfg, r.kind ≠ K_zero) ∧ ∀ bb ∈ cfg, ∀ v ∈ bb.Phi, v.defs ≠ []

instance (cfg : CFG) : Decidable (WellFormed cfg) := by
  unfold WellFormed; infer_instance

/-- A CFG on which phase 4 drops nothing; holds of every round's output. -/
def Compacted (cfg : CFG) : Prop :=
  ∀ bb ∈ cfg, (∀ v ∈ bb.Phi, keepPhi v = true) ∧ ∀ v ∈ bb.Ins, keepIns v = true

/-! ### Concrete fixtures (spec Scenario A) -/

/-- Scenario A register `r1`. -/
def rA : Reg := ⟨1, 1⟩

/-- Scenario A register `r2`. -/
def rB : Reg := ⟨1, 2⟩

/-- Scenario A instruction `r1 = const 5`: declares `r1`, reads nothing. -/
def insConst : IrNode := ⟨true, [rA], false, []⟩

/-- Scenario A instruction `r2 = add r1, r1`: declares `r2`, reads `r1` twice. -/
def insAdd : IrNode := ⟨true, [rB], true, [rA, rA]⟩

/-- Scenario A terminator `return r1`: declares nothing, reads `r1`. -/
def insRet : IrNode := ⟨false, [], true, [rA]⟩

/-- Scenario A CFG: one block `[r1 = const 5; r2 = add r1, r1; return r1]`. -/
def cfgA : CFG := [⟨[], [insConst, insAdd], insRet⟩]

/-- A Phi node declaring the live register `rA`. -/
def phiLive : IrNode := ⟨true, [rA], true, []⟩

/-- A pure side-effecting instruction with neither capability. -/
def insPure : IrNode := ⟨false, [], false, []⟩

/-- A block exercising the compaction keep-conditions. -/
def bbW : BasicBlock := ⟨[phiLive], [insPure], insRet⟩

/-- A Phi node whose `Definitions()` list is empty (it still has the capability,
as every Phi does). -/
def phiEmpty : IrNode := ⟨true, [], true, [rA]⟩

/-! ## Link / SetLinker (`encoder` package) -/

/-- Modelled from the spec: `Program` and `Encoder` are opaque boundary types, and
a non-nil `Linker` is determined by its `Link` method, so an installed linker is a
function `Program → Encoder`. `link_emu` is the built-in interpreter-backed
fallback, defined outside this core. -/
structure LinkEnv (Program Encoder : Type) where
  link_emu : Program → Encoder

/-- The process-wide mutable state consulted by `Link`: the `linker` package
variable, `none` when no linker (or a nil one) is installed. -/
structure LinkState (Program Encoder : Type) where
  linker : Option (Program → Encoder)

/-- `Link`: delegate to the installed linker if there is one, otherwise fall back
to the interpreter-backed `link_emu`. -/
def Link {Program Encoder : Type} (env : LinkEnv Program Encoder)
    (st : LinkState Program Encoder) (p : Program) : Encoder :=
  match st.linker with
  | none => env.link_emu p
  | some l => l p

/-- `SetLinker`: overwrite the process-wide `linker` variable. -/
def SetLinker {Program Encoder : Type} (st : LinkState Program Encoder)
    (v : Option (Program → Encoder)) : LinkState Program Encoder :=
  { st with linker := v }

/-! ## Arithmetic facts about the byte-level bit operations -/

theorem nthBit_eq_testBit (b k : Nat) : nthBit b k = b.testBit k := by
  rw [Nat.testBit_to_div_mod]; rfl

theorem bit_decomp (b k : Nat) :
    b % 2 ^ k + 2 ^ k * (b / 2 ^ k % 2) + 2 ^ (k + 1) * (b / 2 ^ (k + 1)) = b := by
  have h2 : b / 2 ^ (k + 1) = b / 2 ^ k / 2 := by rw [pow_succ, Nat.div_div_eq_div_mul]
  have h3 : b / 2 ^ k % 2 + 2 * (b / 2 ^ k / 2) = b / 2 ^ k := Nat.mod_add_div _ 2
  have h1 : b % 2 ^ k + 2 ^ k * (b / 2 ^ k) = b := Nat.mod_add_div b (2 ^ k)
  calc b % 2 ^ k + 2 ^ k * (b / 2 ^ k % 2) + 2 ^ (k + 1) * (b / 2 ^ (k + 1))
      = b % 2 ^ k + 2 ^ k * (b / 2 ^ k % 2 + 2 * (b / 2 ^ k / 2)) := by rw [h2, pow_succ]; ring
    _ = b := by rw [h3, h1]

theorem lowBits_nthBit (lo m hi k j : Nat) (hj : j < k) :
    nthBit (lo + 2 ^ k * m + 2 ^ (k + 1) * hi) j = nthBit lo j := by
  have ek : (2:Nat) ^ k = 2 ^ j * 2 ^ (k - j) := by rw [← pow_add]; congr 1; omega
  have ek1 : (2:Nat) ^ (k + 1) = 2 ^ j * 2 ^ (k + 1 - j) := by rw [← pow_add]; congr 1; omega
  have e : lo + 2 ^ k * m + 2 ^ (k + 1) * hi
      = lo + 2 ^ j * (2 ^ (k - j) * m + 2 ^ (k + 1 - j) * hi) := by rw [ek, ek1]; ring
  have hdiv : (lo + 2 ^ j * (2 ^ (k - j) * m + 2 ^ (k + 1 - j) * hi)) / 2 ^ j
      = lo / 2 ^ j + (2 ^ (k - j) * m + 2 ^ (k + 1 - j) * hi) :=
    Nat.add_mul_div_left _ _ (Nat.two_pow_pos j)
  have hkj : (2:Nat) ^ (k - j) = 2 * 2 ^ (k - j - 1) := by rw [← pow_succ']; congr 1; omega
  have hkj1 : (2:Nat) ^ (k + 1 - j) = 2 * 2 ^ (k - j) := by rw [← pow_succ']; congr 1; omega
  have hev : 2 ^ (k - j) * m + 2 ^ (k + 1 - j) * hi
      = 2 * (2 ^ (k - j - 1) * m + 2 ^ (k - j) * hi) := by rw [hkj1, hkj]; ring
  unfold nthBit
  rw [e, hdiv, hev]
  have hmod : (lo / 2 ^ j + 2 * (2 ^ (k - j - 1) * m + 2 ^ (k - j) * hi)) % 2
      = lo / 2 ^ j % 2 := by omega
  rw [hmod]

theorem midBit_nthBit (lo m hi k : Nat) (hlo : lo < 2 ^ k) (hm : m < 2) :
    nthBit (lo + 2 ^ k * m + 2 ^ (k + 1) * hi) k = decide (m = 1) := by
  have e : lo + 2 ^ k * m + 2 ^ (k + 1) * hi = lo + 2 ^ k * (m + 2 * hi) := by
    rw [pow_succ]; ring
  have hdiv : (lo + 2 ^ k * m + 2 ^ (k + 1) * hi) / 2 ^ k = m + 2 * hi := by
    rw [e, Nat.add_mul_div_left _ _ (Nat.two_pow_pos k), Nat.div_eq_of_lt hlo, zero_add]
  unfold nthBit
  rw [hdiv]
  have hmod : (m + 2 * hi) % 2 = m := by omega
  rw [hmod]

theorem highBit_nthBit (lo m hi k j : Nat) (hlo : lo < 2 ^ k) (hm : m < 2) (hj : k < j) :
    nthBit (lo + 2 ^ k * m + 2 ^ (k + 1) * hi) j = nthBit hi (j - k - 1) := by
  have hm1 : 2 ^ k * m ≤ 2 ^ k := by
    calc 2 ^ k * m ≤ 2 ^ k * 1 := Nat.mul_le_mul_left _ (by omega)
      _ = 2 ^ k := mul_one _
  have hsmall : lo + 2 ^ k * m < 2 ^ (k + 1) := by
    have hp : (2:Nat) ^ (k + 1) = 2 ^ k + 2 ^ k := by rw [pow_succ]; ring
    omega
  have hdiv1 : (lo + 2 ^ k * m + 2 ^ (k + 1) * hi) / 2 ^ (k + 1) = hi := by
    rw [Nat.add_mul_div_left _ _ (Nat.two_pow_pos (k + 1)), Nat.div_eq_of_lt hsmall, zero_add]
  have ej : (2:Nat) ^ j = 2 ^ (k + 1) * 2 ^ (j - k - 1) := by rw [← pow_add]; congr 1; omega
  have hdiv : (lo + 2 ^ k * m + 2 ^ (k + 1) * hi) / 2 ^ j = hi / 2 ^ (j - k - 1) := by
    rw [ej, ← Nat.div_div_eq_div_mul, hdiv1]
  unfold nthBit
  rw [hdiv]

theorem nthBit_low (b k j : Nat) (h : j < k) : nthBit b j = nthBit (b % 2 ^ k) j := by
  conv_lhs => rw [← bit_decomp b k]
  exact lowBits_nthBit _ _ _ _ _ h

theorem nthBit_high (b k j : Nat) (h : k < j) :
    nthBit b j = nthBit (b / 2 ^ (k + 1)) (j - k - 1) := by
  conv_lhs => rw [← bit_decomp b k]
  exact highBit_nthBit _ _ _ _ _ (Nat.mod_lt _ (Nat.two_pow_pos k)) (Nat.mod_lt _ two_pos) h

theorem nthBit_orBit (b k j : Nat) : nthBit (orBit b k) j = (nthBit b j || decide (j = k)) := by
  have horb : orBit b k = b % 2 ^ k + 2 ^ k * 1 + 2 ^ (k + 1) * (b / 2 ^ (k + 1)) := by
    unfold orBit; ring
  rcases lt_trichotomy j k with h | h | h
  · rw [horb, lowBits_nthBit _ _ _ _ _ h, ← nthBit_low _ _ _ h,
      decide_eq_false (by omega : ¬ j = k), Bool.or_false]
  · subst h
    rw [horb, midBit_nthBit _ _ _ _ (Nat.mod_lt _ (Nat.two_pow_pos j)) one_lt_two]
    simp
  · rw [horb, highBit_nthBit _ _ _ _ _ (Nat.mod_lt _ (Nat.two_pow_pos k)) one_lt_two h,
      ← nthBit_high _ _ _ h, decide_eq_false (by omega : ¬ j = k), Bool.or_false]

theorem nthBit_andNotBit (b k j : Nat) :
    nthBit (andNotBit b k) j = (nthBit b j && !decide (j = k)) := by
  have hanb : andNotBit b k = b % 2 ^ k + 2 ^ k * 0 + 2 ^ (k + 1) * (b / 2 ^ (k + 1)) := by
    unfold andNotBit; ring
  rcases lt_trichotomy j k with h | h | h
  · rw [hanb, lowBits_nthBit _ _ _ _ _ h, ← nthBit_low _ _ _ h,
      decide_eq_false (by omega : ¬ j = k)]
    simp
  · subst h
    rw [hanb, midBit_nthBit _ _ _ _ (Nat.mod_lt _ (Nat.two_pow_pos j)) two_pos]
    simp
  · rw [hanb, highBit_nthBit _ _ _ _ _ (Nat.mod_lt _ (Nat.two_pow_pos k)) two_pos h,
      ← nthBit_high _ _ _ h, decide_eq_false (by omega : ¬ j = k)]
    simp

theorem orBit_eq_lor (b k : Nat) : orBit b k = b ||| 1 <<< k := by
  apply Nat.eq_of_testBit_eq
  intro j
  rw [← nthBit_eq_testBit, nthBit_orBit, Nat.testBit_lor, ← nthBit_eq_testBit,
    Nat.shiftLeft_eq, one_mul]
  congr 1
  by_cases hjk : j = k
  · subst hjk; simp [Nat.testBit_two_pow_self]
  · rw [Nat.testBit_two_pow_of_ne (Ne.symm hjk), decide_eq_false hjk]

theorem andNotBit_eq_ldiff (b k : Nat) : andNotBit b k = Nat.ldiff b (1 <<< k) := by
  apply Nat.eq_of_testBit_eq
  intro j
  rw [← nthBit_eq_testBit, nthBit_andNotBit, Nat.testBit_ldiff, ← nthBit_eq_testBit,
    Nat.shiftLeft_eq, one_mul]
  congr 1
  by_cases hjk : j = k
  · subst hjk; simp [Nat.testBit_two_pow_self]
  · rw [Nat.testBit_two_pow_of_ne (Ne.symm hjk), decide_eq_false hjk]

/-! ## Behaviour of the Bitmap operations -/

theorem getD_append_zero (l : List Nat) (j : Nat) : (l ++ [0]).getD j 0 = l.getD j 0 := by
  rcases Nat.lt_or_ge j l.length with h | h
  · rw [List.getD_eq_getElem?_getD, List.getD_eq_getElem?_getD, List.getElem?_append_left h]
  · rw [List.getD_eq_getElem?_getD, List.getD_eq_getElem?_getD, List.getElem?_append_right h,
      List.getElem?_eq_none h]
    cases hd : j - l.length with
    | zero => rfl
    | succ m => rfl

theorem getD_set_self (l : List Nat) (i a : Nat) (h : i < l.length) :
    (l.set i a).getD i 0 = a := by
  rw [List.getD_eq_getElem?_getD, List.getElem?_set_self h]
  rfl

theorem getD_set_ne (l : List Nat) (i j a : Nat) (h : i ≠ j) :
    (l.set i a).getD j 0 = l.getD j 0 := by
  rw [List.getD_eq_getElem?_getD, List.getD_eq_getElem?_getD, List.getElem?_set_ne h]

theorem grow_N (bm : Bitmap) : bm.grow.N = bm.N := by
  unfold Bitmap.grow; split <;> rfl

theorem grow_getD (bm : Bitmap) (j : Nat) : bm.grow.B.getD j 0 = bm.B.getD j 0 := by
  unfold Bitmap.grow
  split
  · exact getD_append_zero _ _
  · rfl

theorem grow_bit (bm : Bitmap) (j : Nat) : bm.grow.bit j = bm.bit j := by
  unfold Bitmap.bit; rw [grow_getD]

theorem grow_spec (bm : Bitmap) (h : bm.packed) :
    bm.grow.B.length = (bm.N + 8) / 8 ∧ bm.N / 8 < bm.grow.B.length := by
  unfold Bitmap.packed at h
  unfold Bitmap.grow
  split
  · next hc =>
    have hl : ({ bm with B := bm.B ++ [0] } : Bitmap).B.length = bm.B.length + 1 := by simp
    refine ⟨?_, ?_⟩ <;> rw [hl] <;> omega
  · next hc => exact ⟨by omega, by omega⟩

theorem mark_spec (bm : Bitmap) (i : Nat) (bv : Int) (h : i / 8 < bm.B.length) :
    ∃ c, bm.mark i bv = some c ∧ c.N = bm.N ∧ c.B.length = bm.B.length ∧
      c.bit i = decide (bv ≠ 0) ∧ ∀ j, j ≠ i → c.bit j = bm.bit j := by
  unfold Bitmap.mark
  rw [if_pos h]
  by_cases hbv : bv ≠ 0
  · rw [if_pos hbv]
    refine ⟨_, rfl, rfl, by simp, ?_, ?_⟩
    · show nthBit ((bm.B.set (i / 8) (orBit (bm.B.getD (i / 8) 0) (i % 8))).getD (i / 8) 0)
        (i % 8) = decide (bv ≠ 0)
      rw [getD_set_self _ _ _ h, nthBit_orBit, decide_eq_true (rfl : i % 8 = i % 8),
        Bool.or_true, decide_eq_true hbv]
    · intro j hj
      show nthBit ((bm.B.set (i / 8) (orBit (bm.B.getD (i / 8) 0) (i % 8))).getD (j / 8) 0)
        (j % 8) = bm.bit j
      by_cases hd : i / 8 = j / 8
      · rw [← hd, getD_set_self _ _ _ h, nthBit_orBit,
          decide_eq_false (by omega : ¬ j % 8 = i % 8), Bool.or_false]
        unfold Bitmap.bit
        rw [← hd]
      · rw [getD_set_ne _ _ _ _ hd]
        rfl
  · rw [if_neg hbv]
    refine ⟨_, rfl, rfl, by simp, ?_, ?_⟩
    · show nthBit ((bm.B.set (i / 8) (andNotBit (bm.B.getD (i / 8) 0) (i % 8))).getD (i / 8) 0)
        (i % 8) = decide (bv ≠ 0)
      rw [getD_set_self _ _ _ h, nthBit_andNotBit, decide_eq_true (rfl : i % 8 = i % 8),
        Bool.not_true, Bool.and_false, decide_eq_false hbv]
    · intro j hj
      show nthBit ((bm.B.set (i / 8) (andNotBit (bm.B.getD (i / 8) 0) (i % 8))).getD (j / 8) 0)
        (j % 8) = bm.bit j
      by_cases hd : i / 8 = j / 8
      · rw [← hd, getD_set_self _ _ _ h, nthBit_andNotBit,
          decide_eq_false (by omega : ¬ j % 8 = i % 8), Bool.not_false, Bool.and_true]
        unfold Bitmap.bit
        rw [← hd]
      · rw [getD_set_ne _ _ _ _ hd]
        rfl

theorem append_spec (bm : Bitmap) (bv : Int) (h : bm.packed) :
    ∃ c, bm.Append bv = some c ∧ c.N = bm.N + 1 ∧ c.packed ∧
      c.bit bm.N = decide (bv ≠ 0) ∧ ∀ j, j ≠ bm.N → c.bit j = bm.bit j := by
  obtain ⟨hlen, hrange⟩ := grow_spec bm h
  obtain ⟨c, hc, hN, hclen, hbit, hpres⟩ := mark_spec bm.grow bm.N bv hrange
  refine ⟨{ c with N := c.N + 1 }, ?_, ?_, ?_, hbit, ?_⟩
  · unfold Bitmap.Append; rw [hc]; rfl
  · show c.N + 1 = bm.N + 1
    rw [hN, grow_N]
  · show c.B.length = (c.N + 1 + 7) / 8
    rw [hclen, hlen, hN, grow_N]
  · intro j hj
    have hp := hpres j hj
    rw [grow_bit] at hp
    exact hp

theorem appendMany_spec (n : Nat) (bv : Int) :
    ∀ bm : Bitmap, bm.packed → ∃ c, bm.AppendMany n bv = some c ∧ c.N = bm.N + n ∧ c.packed := by
  induction n with
  | zero => exact fun bm h => ⟨bm, rfl, rfl, h⟩
  | succ m ih =>
    intro bm h
    obtain ⟨c1, hc1, hN1, hp1, _, _⟩ := append_spec bm bv h
    obtain ⟨c, hc, hN, hp⟩ := ih c1 hp1
    refine ⟨c, ?_, by omega, hp⟩
    show (bm.Append bv).bind (fun b => b.AppendMany m bv) = some c
    rw [hc1]
    exact hc

theorem int32ofNat_of_lt (n : Nat) (h : n < 2 ^ 31) : int32ofNat n = (n : Int) := by
  unfold int32ofNat
  have h2 : (2:Nat) ^ 31 < 2 ^ 32 := by norm_num
  have h32 : n % 2 ^ 32 = n := Nat.mod_eq_of_lt (lt_trans h h2)
  rw [h32, if_pos h]

theorem addField_spec (s : StackMapBuilder) (ptr : Bool) (h : s.b.packed) :
    ∃ t, s.AddField ptr = some t ∧ t.b.N = s.b.N + 1 ∧ t.b.packed ∧
      t.b.bit s.b.N = ptr ∧ ∀ j, j ≠ s.b.N → t.b.bit j = s.b.bit j := by
  cases ptr
  · obtain ⟨c, hc, hN, hp, hbit, hpres⟩ := append_spec s.b 0 h
    refine ⟨⟨c⟩, ?_, hN, hp, ?_, hpres⟩
    · show (s.b.Append 0).map StackMapBuilder.mk = some ⟨c⟩
      rw [hc]; rfl
    · rw [hbit]; rfl
  · obtain ⟨c, hc, hN, hp, hbit, hpres⟩ := append_spec s.b 1 h
    refine ⟨⟨c⟩, ?_, hN, hp, ?_, hpres⟩
    · show (s.b.Append 1).map StackMapBuilder.mk = some ⟨c⟩
      rw [hc]; rfl
    · rw [hbit]; rfl

theorem runAddFields_spec (bs : List Bool) :
    ∀ s : StackMapBuilder, s.b.packed →
      ∃ t, runAddFields s bs = some t ∧ t.b.N = s.b.N + bs.length ∧ t.b.packed ∧
        (∀ j, j < s.b.N → t.b.bit j = s.b.bit j) ∧
        ∀ i, i < bs.length → t.b.bit (s.b.N + i) = bs.getD i false := by
  induction bs with
  | nil =>
    exact fun s h => ⟨s, rfl, rfl, h, fun j _ => rfl, fun i hi => absurd hi (by simp)⟩
  | cons ptr rest ih =>
    intro s h
    obtain ⟨c1, hc1, hN1, hp1, hbit1, hpres1⟩ := addField_spec s ptr h
    obtain ⟨t, ht, hN, hp, hpresAll, hnew⟩ := ih c1 hp1
    have hlen : (ptr :: rest).length = rest.length + 1 := rfl
    refine ⟨t, ?_, by omega, hp, ?_, ?_⟩
    · show (s.AddField ptr).bind (fun u => runAddFields u rest) = some t
      rw [hc1]
      exact ht
    · intro j hj
      rw [hpresAll j (by omega), hpres1 j (by omega)]
    · intro i hi
      cases i with
      | zero =>
        have h1 : t.b.bit (s.b.N + 0) = c1.b.bit s.b.N := hpresAll s.b.N (by omega)
        rw [h1, hbit1]
        rfl
      | succ m =>
        have hm : m < rest.length := by
          rw [hlen] at hi; omega
        have h2 := hnew m hm
        have he : s.b.N + (m + 1) = c1.b.N + m := by omega
        rw [he, h2]
        rfl

/-- C1: building a stack map from a fresh builder after `AddField b₀ … bₙ₋₁` gives
header bitmap count `N = 1`, bit length `L = n` (the `int32` header field is exact
for any feasible `n < 2^31`), and packed bit `i` equal to `bᵢ` for every `i < n`. -/
theorem stackMapBuilder_build_roundtrip (bs : List Bool) (h : bs.length < 2 ^ 31) :
    ∃ s, runAddFields ⟨⟨0, []⟩⟩ bs = some s ∧ s.Build.N = 1 ∧
      s.Build.L = (bs.length : Int) ∧
      ∀ i, i < bs.length → s.Build.bit i = bs.getD i false := by
  obtain ⟨t, ht, hN, hp, _, hnew⟩ := runAddFields_spec bs ⟨⟨0, []⟩⟩ rfl
  refine ⟨t, ht, rfl, ?_, ?_⟩
  · show int32ofNat t.b.N = (bs.length : Int)
    have he : t.b.N = bs.length := by simpa using hN
    rw [he, int32ofNat_of_lt _ h]
  · intro i hi
    have hb := hnew i hi
    have he : (0:Nat) + i = i := by omega
    rw [he] at hb
    exact hb

/-- Witness for C1 at the concrete call sequence `true, false, true`. -/
theorem stackMapBuilder_build_roundtrip_witness :
    ∃ s, runAddFields ⟨⟨0, []⟩⟩ [true, false, true] = some s ∧ s.Build.N = 1 ∧
      s.Build.L = (([true, false, true] : List Bool).length : Int) ∧
      ∀ i, i < ([true, false, true] : List Bool).length →
        s.Build.bit i = ([true, false, true] : List Bool).getD i false :=
  stackMapBuilder_build_roundtrip [true, false, true] (by decide)

theorem addFields_spec (s : StackMapBuilder) (n : Nat) (ptr : Bool) (h : s.b.packed) :
    ∃ t, s.AddFields n ptr = some t ∧ t.b.N = s.b.N + n ∧ t.b.packed := by
  cases ptr
  · obtain ⟨c, hc, hN, hp⟩ := appendMany_spec n 0 s.b h
    refine ⟨⟨c⟩, ?_, hN, hp⟩
    show (s.b.AppendMany n 0).map StackMapBuilder.mk = some ⟨c⟩
    rw [hc]; rfl
  · obtain ⟨c, hc, hN, hp⟩ := appendMany_spec n 1 s.b h
    refine ⟨⟨c⟩, ?_, hN, hp⟩
    show (s.b.AppendMany n 1).map StackMapBuilder.mk = some ⟨c⟩
    rw [hc]; rfl

theorem builderOp_spec (op : BuilderOp) (s : StackMapBuilder) (h : s.b.packed) :
    ∃ t, op.run s = some t ∧ t.b.N = s.b.N + op.bits ∧ t.b.packed := by
  cases op with
  | field ptr =>
    obtain ⟨t, ht, hN, hp, _, _⟩ := addField_spec s ptr h
    exact ⟨t, ht, hN, hp⟩
  | fields n ptr => exact addFields_spec s n ptr h

theorem runBuilderOps_spec (ops : List BuilderOp) :
    ∀ s, s.b.packed → ∃ t, runBuilderOps s ops = some t ∧
      t.b.N = s.b.N + totalBuilderBits ops ∧ t.b.packed := by
  induction ops with
  | nil => exact fun s h => ⟨s, rfl, rfl, h⟩
  | cons op ops ih =>
    intro s h
    obtain ⟨c1, hc1, hN1, hp1⟩ := builderOp_spec op s h
    obtain ⟨t, ht, hN, hp⟩ := ih c1 hp1
    have htot : totalBuilderBits (op :: ops) = op.bits + totalBuilderBits ops := by
      simp [totalBuilderBits]
    refine ⟨t, ?_, by omega, hp⟩
    show (op.run s).bind (fun u => runBuilderOps u ops) = some t
    rw [hc1]
    exact ht

/-- C6 (amended): the bit length `L` recorded by `Build` equals the total number
of bits appended — one per `AddField` call plus `n` per `AddFields(n, ·)` call —
not the number of calls. -/
theorem stackmap_bitlength_eq_total_bits (ops : List BuilderOp)
    (h : totalBuilderBits ops < 2 ^ 31) :
    ∃ s, runBuilderOps ⟨⟨0, []⟩⟩ ops = some s ∧
      s.Build.L = (totalBuilderBits ops : Int) := by
  obtain ⟨t, ht, hN, _⟩ := runBuilderOps_spec ops ⟨⟨0, []⟩⟩ rfl
  refine ⟨t, ht, ?_⟩
  show int32ofNat t.b.N = (totalBuilderBits ops : Int)
  have he : t.b.N = totalBuilderBits ops := by simpa using hN
  rw [he, int32ofNat_of_lt _ h]

/-- Witness for C6's amended theorem at a concrete call sequence. -/
theorem stackmap_bitlength_eq_total_bits_witness :
    ∃ s, runBuilderOps ⟨⟨0, []⟩⟩ [BuilderOp.field true, BuilderOp.fields 2 false] = some s ∧
      s.Build.L =
        (totalBuilderBits [BuilderOp.field true, BuilderOp.fields 2 false] : Int) :=
  stackmap_bitlength_eq_total_bits [BuilderOp.field true, BuilderOp.fields 2 false] (by decide)

/-- C6 counterexample: a single `AddFields(2, true)` call yields `L = 2`, while
the number of `AddField`/`AddFields` calls made is `1`. -/
theorem stackmap_bitlength_not_call_count :
    runBuilderOps ⟨⟨0, []⟩⟩ [BuilderOp.fields 2 true] = some ⟨⟨2, [3]⟩⟩ ∧
    (StackMapBuilder.mk ⟨2, [3]⟩).Build.L = 2 ∧
    ([BuilderOp.fields 2 true] : List BuilderOp).length = 1 ∧ (2 : Int) ≠ 1 := by
  decide

/-- C7: `Set i bv` fails (fatally, via `panic`) exactly when `i ≥ N`; for `i < N`
it sets bit `i` to `bv ≠ 0`, changes no other bit, and leaves `N` and the backing
length unchanged. The hypothesis is the bitmap invariant `N ≤ 8·len(B)`. -/
theorem bitmap_set_spec (bm : Bitmap) (i : Nat) (bv : Int) (hwf : bm.N ≤ 8 * bm.B.length) :
    (bm.Set i bv = none ↔ bm.N ≤ i) ∧
    (i < bm.N → ∃ c, bm.Set i bv = some c ∧ c.N = bm.N ∧ c.B.length = bm.B.length ∧
      c.bit i = decide (bv ≠ 0) ∧ ∀ j, j ≠ i → c.bit j = bm.bit j) := by
  have hmark : i < bm.N → i / 8 < bm.B.length := by omega
  constructor
  · constructor
    · intro hnone
      by_contra hlt
      push_neg at hlt
      obtain ⟨c, hc, _⟩ := mark_spec bm i bv (hmark hlt)
      unfold Bitmap.Set at hnone
      rw [if_neg (by omega : ¬ i ≥ bm.N), hc] at hnone
      exact Option.noConfusion hnone
    · intro hge
      unfold Bitmap.Set
      rw [if_pos (by omega : i ≥ bm.N)]
  · intro hlt
    obtain ⟨c, hc, h1, h2, h3, h4⟩ := mark_spec bm i bv (hmark hlt)
    refine ⟨c, ?_, h1, h2, h3, h4⟩
    unfold Bitmap.Set
    rw [if_neg (by omega : ¬ i ≥ bm.N)]
    exact hc

/-- Witness for C7 on the concrete bitmap `⟨2, [0]⟩`, position `0`, bit `1`. -/
theorem bitmap_set_spec_witness :
    ((Bitmap.mk 2 [0]).Set 0 1 = none ↔ (Bitmap.mk 2 [0]).N ≤ 0) ∧
    (0 < (Bitmap.mk 2 [0]).N → ∃ c, (Bitmap.mk 2 [0]).Set 0 1 = some c ∧
      c.N = (Bitmap.mk 2 [0]).N ∧ c.B.length = (Bitmap.mk 2 [0]).B.length ∧
      c.bit 0 = decide ((1 : Int) ≠ 0) ∧ ∀ j, j ≠ 0 → c.bit j = (Bitmap.mk 2 [0]).bit j) :=
  bitmap_set_spec ⟨2, [0]⟩ 0 1 (by decide)

theorem bitOp_spec (op : BitOp) (bm : Bitmap) (h : bm.packed) :
    ∃ c, op.run bm = some c ∧ c.N = bm.N + op.bits ∧ c.packed := by
  cases op with
  | append bv =>
    obtain ⟨c, hc, hN, hp, _, _⟩ := append_spec bm bv h
    exact ⟨c, hc, hN, hp⟩
  | appendMany n bv => exact appendMany_spec n bv bm h

theorem runBitOps_spec (ops : List BitOp) :
    ∀ bm, bm.packed → ∃ c, runBitOps bm ops = some c ∧ c.N = bm.N + totalBits ops ∧
      c.packed := by
  induction ops with
  | nil => exact fun bm h => ⟨bm, rfl, rfl, h⟩
  | cons op ops ih =>
    intro bm h
    obtain ⟨c1, hc1, hN1, hp1⟩ := bitOp_spec op bm h
    obtain ⟨c, hc, hN, hp⟩ := ih c1 hp1
    have htot : totalBits (op :: ops) = op.bits + totalBits ops := by simp [totalBits]
    refine ⟨c, ?_, by omega, hp⟩
    show (op.run bm).bind (fun u => runBitOps u ops) = some c
    rw [hc1]
    exact hc

/-- C8: appending `m` bits in total to an empty bitmap — by any mix of `Append`
and `AppendMany` — never fails, yields `N = m` with exactly `⌈m / 8⌉` backing
bytes (so `8k+1` appended bits allocate exactly `k+1` bytes), and maintains the
invariant `N ≤ 8·len(B)`. -/
theorem bitmap_append_growth (ops : List BitOp) :
    ∃ bm, runBitOps ⟨0, []⟩ ops = some bm ∧ bm.N = totalBits ops ∧
      bm.B.length = (totalBits ops + 7) / 8 ∧ bm.N ≤ 8 * bm.B.length ∧
      ∀ k, totalBits ops = 8 * k + 1 → bm.B.length = k + 1 := by
  obtain ⟨bm, h1, h2, h3⟩ := runBitOps_spec ops ⟨0, []⟩ rfl
  unfold Bitmap.packed at h3
  have hN : bm.N = totalBits ops := by simpa using h2
  refine ⟨bm, h1, hN, by omega, by omega, ?_⟩
  intro k hk
  omega

/-- Witness for C8: appending `9 = 8·1 + 1` bits allocates exactly `2` bytes. -/
theorem bitmap_append_growth_witness :
    ∃ bm, runBitOps ⟨0, []⟩ [BitOp.appendMany 9 1] = some bm ∧ bm.B.length = 1 + 1 := by
  obtain ⟨bm, h1, _, _, _, h5⟩ := bitmap_append_growth [BitOp.appendMany 9 1]
  exact ⟨bm, h1, h5 1 (by decide)⟩

/-! ## Behaviour of the TDCE pass -/

theorem list_map_id_of_mem {α : Type} (f : α → α) :
    ∀ l : List α, (∀ a ∈ l, f a = a) → l.map f = l := by
  intro l
  induction l with
  | nil => intro _; rfl
  | cons a l ih =>
    intro h
    rw [List.map_cons, h a (by simp), ih fun b hb => h b (by simp [hb])]

theorem mem_cfgDecls_phi {cfg : CFG} {bb : BasicBlock} {v : IrNode} {r : Reg}
    (hbb : bb ∈ cfg) (hv : v ∈ bb.Phi) (hr : r ∈ v.defs) : r ∈ cfgDecls cfg := by
  unfold cfgDecls blockDecls
  rw [List.mem_flatMap]
  refine ⟨bb, hbb, ?_⟩
  simp only [List.mem_append, List.mem_flatMap]
  exact Or.inl (Or.inl ⟨v, hv, hr⟩)

theorem mem_cfgDecls_ins {cfg : CFG} {bb : BasicBlock} {v : IrNode} {r : Reg}
    (hbb : bb ∈ cfg) (hv : v ∈ bb.Ins) (hr : r ∈ insDefs v) : r ∈ cfgDecls cfg := by
  unfold cfgDecls blockDecls
  rw [List.mem_flatMap]
  refine ⟨bb, hbb, ?_⟩
  simp only [List.mem_append, List.mem_flatMap]
  exact Or.inl (Or.inr ⟨v, hv, hr⟩)

theorem mem_cfgDecls_term {cfg : CFG} {bb : BasicBlock} {r : Reg}
    (hbb : bb ∈ cfg) (hr : r ∈ insDefs bb.Term) : r ∈ cfgDecls cfg := by
  unfold cfgDecls blockDecls
  rw [List.mem_flatMap]
  refine ⟨bb, hbb, ?_⟩
  simp only [List.mem_append, List.mem_flatMap]
  exact Or.inr hr

theorem mem_cfgDecls_elim {cfg : CFG} {r : Reg} (h : r ∈ cfgDecls cfg) :
    ∃ bb, bb ∈ cfg ∧ ((∃ v ∈ bb.Phi, r ∈ v.defs) ∨ (∃ v ∈ bb.Ins, r ∈ insDefs v) ∨
      r ∈ insDefs bb.Term) := by
  unfold cfgDecls blockDecls at h
  rw [List.mem_flatMap] at h
  obtain ⟨bb, hbb, hr⟩ := h
  simp only [List.mem_append, List.mem_flatMap] at hr
  refine ⟨bb, hbb, ?_⟩
  rcases hr with (h | h) | h
  · exact Or.inl h
  · exact Or.inr (Or.inl h)
  · exact Or.inr (Or.inr h)

theorem mem_cfgUses_elim {cfg : CFG} {r : Reg} (h : r ∈ cfgUses cfg) :
    ∃ bb, bb ∈ cfg ∧ ((∃ v ∈ bb.Phi, r ∈ v.uses) ∨ (∃ v ∈ bb.Ins, r ∈ insUses v) ∨
      r ∈ insUses bb.Term) := by
  unfold cfgUses blockUses at h
  rw [List.mem_flatMap] at h
  obtain ⟨bb, hbb, hr⟩ := h
  simp only [List.mem_append, List.mem_flatMap] at hr
  refine ⟨bb, hbb, ?_⟩
  rcases hr with (h | h) | h
  · exact Or.inl h
  · exact Or.inr (Or.inl h)
  · exact Or.inr (Or.inr h)

theorem mem_cfgUses_intro {cfg : CFG} {bb : BasicBlock} {r : Reg} (hbb : bb ∈ cfg)
    (h : (∃ v ∈ bb.Phi, r ∈ v.uses) ∨ (∃ v ∈ bb.Ins, r ∈ insUses v) ∨
      r ∈ insUses bb.Term) : r ∈ cfgUses cfg := by
  unfold cfgUses blockUses
  rw [List.mem_flatMap]
  refine ⟨bb, hbb, ?_⟩
  simp only [List.mem_append, List.mem_flatMap]
  rcases h with h | h | h
  · exact Or.inl (Or.inl h)
  · exact Or.inl (Or.inr h)
  · exact Or.inr h

theorem insDefs_rewriteIns (dead : Reg → Bool) (v : IrNode) :
    insDefs (rewriteIns dead v) = (insDefs v).map (rewriteReg dead) := by
  cases hv : v.hasDefs <;> simp [insDefs, rewriteIns, hv]

theorem insUses_rewriteIns (dead : Reg → Bool) (v : IrNode) :
    insUses (rewriteIns dead v) = insUses v := by
  cases hv : v.hasDefs <;> cases hu : v.hasUses <;> simp [insUses, rewriteIns, hv, hu]

theorem blockDecls_phase3 (dead : Reg → Bool) (bb : BasicBlock) :
    blockDecls (phase3Block dead bb) = (blockDecls bb).map (rewriteReg dead) := by
  unfold blockDecls phase3Block
  rw [List.map_append, List.map_append]
  have h1 : (bb.Phi.map (rewritePhi dead)).flatMap (fun v => v.defs)
      = (bb.Phi.flatMap fun v => v.defs).map (rewriteReg dead) := by
    rw [List.map_flatMap, List.flatMap_map]
    rfl
  have h2 : (bb.Ins.map (rewriteIns dead)).flatMap insDefs
      = (bb.Ins.flatMap insDefs).map (rewriteReg dead) := by
    rw [List.map_flatMap, List.flatMap_map]
    simp only [insDefs_rewriteIns]
  rw [h1, h2, insDefs_rewriteIns]

theorem blockUses_phase3 (dead : Reg → Bool) (bb : BasicBlock) :
    blockUses (phase3Block dead bb) = blockUses bb := by
  unfold blockUses phase3Block
  have h1 : (bb.Phi.map (rewritePhi dead)).flatMap (fun v => v.uses)
      = bb.Phi.flatMap fun v => v.uses := by
    rw [List.flatMap_map]
    rfl
  have h2 : (bb.Ins.map (rewriteIns dead)).flatMap insUses = bb.Ins.flatMap insUses := by
    rw [List.flatMap_map]
    simp only [insUses_rewriteIns]
  rw [h1, h2, insUses_rewriteIns]

theorem cfgDecls_phase3 (dead : Reg → Bool) (cfg : CFG) :
    cfgDecls (phase3 dead cfg) = (cfgDecls cfg).map (rewriteReg dead) := by
  unfold cfgDecls phase3
  rw [List.flatMap_map, List.map_flatMap]
  simp only [blockDecls_phase3]

theorem cfgUses_phase3 (dead : Reg → Bool) (cfg : CFG) :
    cfgUses (phase3 dead cfg) = cfgUses cfg := by
  unfold cfgUses phase3
  rw [List.flatMap_map]
  simp only [blockUses_phase3]

theorem phase3Changed_true_iff (dead : Reg → Bool) (cfg : CFG) :
    phase3Changed dead cfg = true ↔ ∃ r ∈ cfgDecls cfg, rewrites dead r = true := by
  unfold phase3Changed
  rw [List.any_eq_true]
  constructor
  · rintro ⟨bb, hbb, hblock⟩
    simp only [Bool.or_eq_true, List.any_eq_true] at hblock
    rcases hblock with (⟨v, hv, r, hr, hrw⟩ | ⟨v, hv, r, hr, hrw⟩) | ⟨r, hr, hrw⟩
    · exact ⟨r, mem_cfgDecls_phi hbb hv hr, hrw⟩
    · exact ⟨r, mem_cfgDecls_ins hbb hv hr, hrw⟩
    · exact ⟨r, mem_cfgDecls_term hbb hr, hrw⟩
  · rintro ⟨r, hr, hrw⟩
    obtain ⟨bb, hbb, hcase⟩ := mem_cfgDecls_elim hr
    refine ⟨bb, hbb, ?_⟩
    simp only [Bool.or_eq_true, List.any_eq_true]
    rcases hcase with ⟨v, hv, hr'⟩ | ⟨v, hv, hr'⟩ | hr'
    · exact Or.inl (Or.inl ⟨v, hv, r, hr', hrw⟩)
    · exact Or.inl (Or.inr ⟨v, hv, r, hr', hrw⟩)
    · exact Or.inr ⟨r, hr', hrw⟩

theorem phase3Changed_false_iff (dead : Reg → Bool) (cfg : CFG) :
    phase3Changed dead cfg = false ↔ ∀ r ∈ cfgDecls cfg, rewrites dead r = false := by
  constructor
  · intro h r hr
    cases hx : rewrites dead r
    · rfl
    · have := (phase3Changed_true_iff dead cfg).mpr ⟨r, hr, hx⟩
      rw [h] at this
      exact Bool.noConfusion this
  · intro h
    cases hx : phase3Changed dead cfg
    · rfl
    · obtain ⟨r, hr, hrw⟩ := (phase3Changed_true_iff dead cfg).mp hx
      rw [h r hr] at hrw
      exact Bool.noConfusion hrw

theorem insDefs_of_hasDefs {v : IrNode} (h : v.hasDefs = true) : insDefs v = v.defs := by
  unfold insDefs; rw [if_pos h]

theorem rewriteReg_eq_self {dead : Reg → Bool} {r : Reg} (h : rewrites dead r = false) :
    rewriteReg dead r = r := by
  unfold rewriteReg; simp [h]

theorem rewriteReg_eq_zero {dead : Reg → Bool} {r : Reg} (h : rewrites dead r = true) :
    rewriteReg dead r = r.Zero := by
  unfold rewriteReg; simp [h]

theorem rewritePhi_id {dead : Reg → Bool} {v : IrNode}
    (h : ∀ r ∈ v.defs, rewrites dead r = false) : rewritePhi dead v = v := by
  unfold rewritePhi
  rw [list_map_id_of_mem _ _ fun r hr => rewriteReg_eq_self (h r hr)]

theorem rewriteIns_id {dead : Reg → Bool} {v : IrNode}
    (h : ∀ r ∈ insDefs v, rewrites dead r = false) : rewriteIns dead v = v := by
  unfold rewriteIns
  split
  · next hd =>
    rw [list_map_id_of_mem _ _
      fun r hr => rewriteReg_eq_self (h r (by rw [insDefs_of_hasDefs hd]; exact hr))]
  · rfl

theorem phase3_id (dead : Reg → Bool) (cfg : CFG) (h : phase3Changed dead cfg = false) :
    phase3 dead cfg = cfg := by
  have H := (phase3Changed_false_iff dead cfg).mp h
  unfold phase3
  apply list_map_id_of_mem
  intro bb hbb
  unfold phase3Block
  rw [list_map_id_of_mem _ _
      fun v hv => rewritePhi_id fun r hr => H r (mem_cfgDecls_phi hbb hv hr),
    list_map_id_of_mem _ _
      fun v hv => rewriteIns_id fun r hr => H r (mem_cfgDecls_ins hbb hv hr),
    rewriteIns_id fun r hr => H r (mem_cfgDecls_term hbb hr)]

theorem phase4_id (cfg : CFG) (h : Compacted cfg) : phase4 cfg = cfg := by
  unfold phase4
  apply list_map_id_of_mem
  intro bb hbb
  unfold phase4Block
  rw [List.filter_eq_self.mpr (h bb hbb).1, List.filter_eq_self.mpr (h bb hbb).2]

theorem compacted_phase4 (cfg : CFG) : Compacted (phase4 cfg) := by
  intro bb hbb
  unfold phase4 at hbb
  rw [List.mem_map] at hbb
  obtain ⟨bb0, hbb0, rfl⟩ := hbb
  exact ⟨fun v hv => List.of_mem_filter hv, fun v hv => List.of_mem_filter hv⟩

theorem compacted_round (cfg : CFG) : Compacted (tdceRound cfg).1 :=
  compacted_phase4 _

theorem countP_lt_of_witness {α : Type} (p q : α → Bool) :
    ∀ l : List α, (∀ x ∈ l, q x = true → p x = true) →
      ∀ a ∈ l, q a = false → p a = true → l.countP q < l.countP p := by
  intro l
  induction l with
  | nil => intro _ a ha; exact absurd ha (by simp)
  | cons b l ih =>
    intro hmono a ha hqa hpa
    have hmono' : ∀ x ∈ l, q x = true → p x = true := fun x hx => hmono x (by simp [hx])
    have hle : l.countP q ≤ l.countP p := List.countP_mono_left hmono'
    rw [List.countP_cons, List.countP_cons]
    rcases List.mem_cons.mp ha with rfl | ha'
    · have e1 : (if q a = true then 1 else 0) = 0 := by rw [hqa]; rfl
      have e2 : (if p a = true then 1 else 0) = 1 := by rw [hpa]; rfl
      rw [e1, e2]
      omega
    · have hlt := ih hmono' a ha' hqa hpa
      have hhead : (if q b = true then 1 else 0) ≤ if p b = true then 1 else 0 := by
        cases hqb : q b
        · simp
        · rw [hmono b (by simp) hqb]
      omega

theorem not_kind_zero_rewriteReg {dead : Reg → Bool} {r : Reg}
    (h : decide ((rewriteReg dead r).kind ≠ K_zero) = true) :
    decide (r.kind ≠ K_zero) = true := by
  cases hx : rewrites dead r
  · rw [rewriteReg_eq_self hx] at h
    exact h
  · rw [rewriteReg_eq_zero hx] at h
    simp [Reg.Zero, K_zero] at h

theorem liveCount_phase3_le (dead : Reg → Bool) (cfg : CFG) :
    liveCount (phase3 dead cfg) ≤ liveCount cfg := by
  unfold liveCount
  rw [cfgDecls_phase3, List.countP_map]
  exact List.countP_mono_left fun r _ h => not_kind_zero_rewriteReg h

theorem liveCount_phase3_lt (dead : Reg → Bool) (cfg : CFG)
    (h : phase3Changed dead cfg = true) :
    liveCount (phase3 dead cfg) < liveCount cfg := by
  obtain ⟨r, hr, hrw⟩ := (phase3Changed_true_iff dead cfg).mp h
  unfold liveCount
  rw [cfgDecls_phase3, List.countP_map]
  apply countP_lt_of_witness _ _ _ (fun x _ hx => not_kind_zero_rewriteReg hx) r hr
  · show decide ((rewriteReg dead r).kind ≠ K_zero) = false
    rw [rewriteReg_eq_zero hrw]
    rfl
  · show decide (r.kind ≠ K_zero) = true
    unfold rewrites at hrw
    simp only [Bool.and_eq_true] at hrw
    exact hrw.2

theorem countP_flatMap_filter {q : Reg → Bool} (p : IrNode → Bool) (f : IrNode → List Reg) :
    ∀ l : List IrNode, (∀ v ∈ l, p v = false → (f v).countP q = 0) →
      ((l.filter p).flatMap f).countP q = (l.flatMap f).countP q := by
  intro l
  induction l with
  | nil => intro _; rfl
  | cons v l ih =>
    intro h
    have h' : ∀ w ∈ l, p w = false → (f w).countP q = 0 := fun w hw => h w (by simp [hw])
    rw [List.flatMap_cons, List.countP_append]
    cases hp : p v
    · rw [List.filter_cons_of_neg (by rw [hp]; exact Bool.false_ne_true), ih h',
        h v (by simp) hp]
      omega
    · rw [List.filter_cons_of_pos (by rw [hp]), List.flatMap_cons, List.countP_append, ih h']

theorem keepPhi_false_countP {v : IrNode} (h : keepPhi v = false) :
    v.defs.countP (fun r => decide (r.kind ≠ K_zero)) = 0 := by
  unfold keepPhi at h
  exact List.countP_eq_zero.mpr fun r hr => by
    have hx := List.any_eq_false.mp h r hr
    simpa using hx

theorem keepIns_false_countP {v : IrNode} (h : keepIns v = false) :
    (insDefs v).countP (fun r => decide (r.kind ≠ K_zero)) = 0 := by
  unfold keepIns at h
  rcases Bool.or_eq_false_iff.mp h with ⟨h12, h3⟩
  rcases Bool.or_eq_false_iff.mp h12 with ⟨h1, _⟩
  have hd : v.hasDefs = true := by
    cases hx : v.hasDefs
    · rw [hx] at h1; exact absurd h1 (by decide)
    · rfl
  rw [insDefs_of_hasDefs hd]
  exact List.countP_eq_zero.mpr fun r hr => by
    have hx := List.any_eq_false.mp h3 r hr
    simpa using hx

theorem blockDecls_phase4_countP (bb : BasicBlock) :
    (blockDecls (phase4Block bb)).countP (fun r => decide (r.kind ≠ K_zero)) =
      (blockDecls bb).countP fun r => decide (r.kind ≠ K_zero) := by
  unfold blockDecls phase4Block
  rw [List.countP_append, List.countP_append, List.countP_append, List.countP_append,
    countP_flatMap_filter _ _ _ fun v _ hv => keepPhi_false_countP hv,
    countP_flatMap_filter _ _ _ fun v _ hv => keepIns_false_countP hv]

theorem liveCount_phase4 (cfg : CFG) : liveCount (phase4 cfg) = liveCount cfg := by
  unfold liveCount phase4 cfgDecls
  rw [List.flatMap_map]
  induction cfg with
  | nil => rfl
  | cons bb cfg ih =>
    rw [List.flatMap_cons, List.flatMap_cons, List.countP_append, List.countP_append, ih]
    congr 1
    exact blockDecls_phase4_countP bb

theorem liveCount_round_le (cfg : CFG) : liveCount (tdceRound cfg).1 ≤ liveCount cfg := by
  show liveCount (phase4 (phase3 (deadReg cfg) cfg)) ≤ liveCount cfg
  rw [liveCount_phase4]
  exact liveCount_phase3_le _ _

theorem liveCount_round_lt (cfg : CFG) (h : (tdceRound cfg).2 = false) :
    liveCount (tdceRound cfg).1 < liveCount cfg := by
  have hch : phase3Changed (deadReg cfg) cfg = true := by
    have hb : (!phase3Changed (deadReg cfg) cfg) = false := h
    cases hx : phase3Changed (deadReg cfg) cfg
    · rw [hx] at hb; exact absurd hb (by decide)
    · rfl
  show liveCount (phase4 (phase3 (deadReg cfg) cfg)) < liveCount cfg
  rw [liveCount_phase4]
  exact liveCount_phase3_lt _ _ hch

theorem tdceRound_done_eq (cfg : CFG) (hQ : Compacted cfg) (hd : (tdceRound cfg).2 = true) :
    tdceRound cfg = (cfg, true) := by
  have hch : phase3Changed (deadReg cfg) cfg = false := by
    have hb : (!phase3Changed (deadReg cfg) cfg) = true := hd
    cases hx : phase3Changed (deadReg cfg) cfg
    · rfl
    · rw [hx] at hb; exact absurd hb (by decide)
  have h1 : (tdceRound cfg).1 = cfg := by
    show phase4 (phase3 (deadReg cfg) cfg) = cfg
    rw [phase3_id _ _ hch, phase4_id _ hQ]
  calc tdceRound cfg = ((tdceRound cfg).1, (tdceRound cfg).2) := rfl
    _ = (cfg, true) := by rw [h1, hd]

theorem applyLoop_fix : ∀ fuel cfg, Compacted cfg → liveCount cfg < fuel →
    tdceRound (applyLoop fuel cfg) = (applyLoop fuel cfg, true) := by
  intro fuel
  induction fuel with
  | zero => intro cfg _ h; omega
  | succ m ih =>
    intro cfg hQ hlt
    show tdceRound (if (tdceRound cfg).2 then (tdceRound cfg).1
        else applyLoop m (tdceRound cfg).1)
      = (if (tdceRound cfg).2 then (tdceRound cfg).1 else applyLoop m (tdceRound cfg).1, true)
    by_cases hd : (tdceRound cfg).2 = true
    · have heq := tdceRound_done_eq cfg hQ hd
      have h1 : (tdceRound cfg).1 = cfg := by rw [heq]
      rw [if_pos hd, h1]
      exact heq
    · have hd' : (tdceRound cfg).2 = false := by
        cases hx : (tdceRound cfg).2
        · rfl
        · exact absurd hx hd
      rw [if_neg hd]
      exact ih (tdceRound cfg).1 (compacted_round cfg)
        (by have hlt2 := liveCount_round_lt cfg hd'; omega)

theorem applyLoop_congr : ∀ f1 : Nat, ∀ cfg : CFG, ∀ f2 : Nat,
    liveCount cfg < f1 → liveCount cfg < f2 → applyLoop f1 cfg = applyLoop f2 cfg := by
  intro f1
  induction f1 with
  | zero => intro cfg _ h _; omega
  | succ a ih =>
    intro cfg f2 h1 h2
    cases f2 with
    | zero => omega
    | succ b =>
      show (if (tdceRound cfg).2 then (tdceRound cfg).1 else applyLoop a (tdceRound cfg).1)
        = if (tdceRound cfg).2 then (tdceRound cfg).1 else applyLoop b (tdceRound cfg).1
      by_cases hd : (tdceRound cfg).2 = true
      · rw [if_pos hd, if_pos hd]
      · have hd' : (tdceRound cfg).2 = false := by
          cases hx : (tdceRound cfg).2
          · rfl
          · exact absurd hx hd
        have hlt := liveCount_round_lt cfg hd'
        rw [if_neg hd, if_neg hd]
        exact ih (tdceRound cfg).1 b (by omega) (by omega)

theorem compacted_of_wellFormed (cfg : CFG) (h : WellFormed cfg) : Compacted cfg := by
  obtain ⟨hk, hphi⟩ := h
  intro bb hbb
  constructor
  · intro v hv
    obtain ⟨r, hr⟩ := List.exists_mem_of_ne_nil v.defs (hphi bb hbb v hv)
    unfold keepPhi
    rw [List.any_eq_true]
    exact ⟨r, hr, decide_eq_true (hk r (mem_cfgDecls_phi hbb hv hr))⟩
  · intro v hv
    unfold keepIns
    cases hd : v.hasDefs
    · rfl
    · rcases hdefs : v.defs with _ | ⟨r, rest⟩
      · simp [hdefs]
      · have hr : r ∈ v.defs := by rw [hdefs]; simp
        have hkr := hk r (mem_cfgDecls_ins hbb hv (by rw [insDefs_of_hasDefs hd]; exact hr))
        have hany : (v.defs.any fun x => decide (x.kind ≠ K_zero)) = true :=
          List.any_eq_true.mpr ⟨r, hr, decide_eq_true hkr⟩
        simp only [hd, Bool.not_true, Bool.false_or, Bool.or_eq_true, List.any_eq_true]
        exact Or.inr ⟨r, List.mem_cons_self r rest, decide_eq_true hkr⟩

theorem round_done_not_changed (cfg : CFG) (h : (tdceRound cfg).2 = true) :
    phase3Changed (deadReg cfg) cfg = false := by
  have hb : (!phase3Changed (deadReg cfg) cfg) = true := h
  cases hx : phase3Changed (deadReg cfg) cfg
  · rfl
  · rw [hx] at hb; exact absurd hb (by decide)

theorem cfgDecls_phase4_sub {cfg : CFG} {r : Reg} (h : r ∈ cfgDecls (phase4 cfg)) :
    r ∈ cfgDecls cfg := by
  obtain ⟨bb', hbb', hcase⟩ := mem_cfgDecls_elim h
  unfold phase4 at hbb'
  rw [List.mem_map] at hbb'
  obtain ⟨bb, hbb, rfl⟩ := hbb'
  rcases hcase with ⟨v, hv, hr⟩ | ⟨v, hv, hr⟩ | hr
  · exact mem_cfgDecls_phi hbb (List.mem_of_mem_filter hv) hr
  · exact mem_cfgDecls_ins hbb (List.mem_of_mem_filter hv) hr
  · exact mem_cfgDecls_term hbb hr

theorem cfgUses_phase4_sub {cfg : CFG} {r : Reg} (h : r ∈ cfgUses (phase4 cfg)) :
    r ∈ cfgUses cfg := by
  obtain ⟨bb', hbb', hcase⟩ := mem_cfgUses_elim h
  unfold phase4 at hbb'
  rw [List.mem_map] at hbb'
  obtain ⟨bb, hbb, rfl⟩ := hbb'
  apply mem_cfgUses_intro hbb
  rcases hcase with ⟨v, hv, hr⟩ | ⟨v, hv, hr⟩ | hr
  · exact Or.inl ⟨v, List.mem_of_mem_filter hv, hr⟩
  · exact Or.inr (Or.inl ⟨v, List.mem_of_mem_filter hv, hr⟩)
  · exact Or.inr (Or.inr hr)

/-- C2: on a well-formed CFG, after `TDCE.Apply` every declared register whose kind
is not the zero sentinel is read by some Phi node, instruction, or terminator of
the resulting CFG. -/
theorem tdce_apply_sound (cfg : CFG) (h : WellFormed cfg) :
    ∀ r, r ∈ cfgDecls (TDCE.Apply cfg) → r.kind ≠ K_zero →
      r ∈ cfgUses (TDCE.Apply cfg) := by
  have hfix : tdceRound (TDCE.Apply cfg) = (TDCE.Apply cfg, true) := by
    unfold TDCE.Apply
    exact applyLoop_fix (liveCount cfg + 1) cfg (compacted_of_wellFormed cfg h) (by omega)
  intro r hr hk
  have hch : phase3Changed (deadReg (TDCE.Apply cfg)) (TDCE.Apply cfg) = false :=
    round_done_not_changed _ (by rw [hfix])
  have hrw := (phase3Changed_false_iff _ _).mp hch r hr
  unfold rewrites at hrw
  by_contra hu
  have hdead : deadReg (TDCE.Apply cfg) r = true := by
    unfold deadReg
    rw [decide_eq_true hr, decide_eq_false hu]
    rfl
  rw [hdead, decide_eq_true hk] at hrw
  exact absurd hrw (by decide)

/-- Witness for C2 on the Scenario A CFG: after `Apply`, the surviving register
`rA` is still read. -/
theorem tdce_apply_sound_witness : rA ∈ cfgUses (TDCE.Apply cfgA) :=
  tdce_apply_sound cfgA (by decide) rA (by decide) (by decide)

/-- C4: on a well-formed CFG a second `TDCE.Apply` performs zero rewrites — its
phase 3 neutralizes nothing — and returns the first run's output unchanged (the
whole second round, compaction included, is the identity). -/
theorem tdce_apply_idempotent (cfg : CFG) (h : WellFormed cfg) :
    phase3Changed (deadReg (TDCE.Apply cfg)) (TDCE.Apply cfg) = false ∧
    tdceRound (TDCE.Apply cfg) = (TDCE.Apply cfg, true) ∧
    TDCE.Apply (TDCE.Apply cfg) = TDCE.Apply cfg := by
  have hfix : tdceRound (TDCE.Apply cfg) = (TDCE.Apply cfg, true) := by
    unfold TDCE.Apply
    exact applyLoop_fix (liveCount cfg + 1) cfg (compacted_of_wellFormed cfg h) (by omega)
  refine ⟨round_done_not_changed _ (by rw [hfix]), hfix, ?_⟩
  show (if (tdceRound (TDCE.Apply cfg)).2 then (tdceRound (TDCE.Apply cfg)).1
    else applyLoop (liveCount (TDCE.Apply cfg)) (tdceRound (TDCE.Apply cfg)).1)
    = TDCE.Apply cfg
  rw [hfix]
  rfl

/-- Witness for C4 on the Scenario A CFG. -/
theorem tdce_apply_idempotent_witness :
    phase3Changed (deadReg (TDCE.Apply cfgA)) (TDCE.Apply cfgA) = false ∧
    tdceRound (TDCE.Apply cfgA) = (TDCE.Apply cfgA, true) ∧
    TDCE.Apply (TDCE.Apply cfgA) = TDCE.Apply cfgA :=
  tdce_apply_idempotent cfgA (by decide)

/-- C5: termination of `TDCE.Apply`. Any fuel beyond `liveCount cfg` rounds gives
the same result (the loop reaches its fixed point within that many rounds); each
round never increases, and each non-final round strictly decreases, the number of
non-sentinel declared registers; a round introduces no register beyond the
sentinels it writes; and the loop exits on the first round whose phase 3
neutralizes nothing. -/
theorem tdce_apply_terminates :
    (∀ cfg fuel, liveCount cfg + 1 ≤ fuel → applyLoop fuel cfg = TDCE.Apply cfg) ∧
    (∀ cfg, liveCount (tdceRound cfg).1 ≤ liveCount cfg) ∧
    (∀ cfg, (tdceRound cfg).2 = false → liveCount (tdceRound cfg).1 < liveCount cfg) ∧
    (∀ cfg r, r ∈ cfgDecls (tdceRound cfg).1 ∨ r ∈ cfgUses (tdceRound cfg).1 →
      r ∈ cfgDecls cfg ∨ r ∈ cfgUses cfg ∨ r.kind = K_zero) ∧
    (∀ cfg fuel, (tdceRound cfg).2 = true → applyLoop (fuel + 1) cfg = (tdceRound cfg).1) := by
  refine ⟨?_, liveCount_round_le, liveCount_round_lt, ?_, ?_⟩
  · intro cfg fuel hf
    exact applyLoop_congr fuel cfg (liveCount cfg + 1) (by omega) (by omega)
  · intro cfg r hmem
    rcases hmem with hd | hu
    · have hd' : r ∈ cfgDecls (phase3 (deadReg cfg) cfg) := cfgDecls_phase4_sub hd
      rw [cfgDecls_phase3, List.mem_map] at hd'
      obtain ⟨s, hs, rfl⟩ := hd'
      cases hx : rewrites (deadReg cfg) s
      · rw [rewriteReg_eq_self hx]
        exact Or.inl hs
      · rw [rewriteReg_eq_zero hx]
        exact Or.inr (Or.inr rfl)
    · have hu' : r ∈ cfgUses (phase3 (deadReg cfg) cfg) := cfgUses_phase4_sub hu
      rw [cfgUses_phase3] at hu'
      exact Or.inr (Or.inl hu')
  · intro cfg fuel hd
    show (if (tdceRound cfg).2 then (tdceRound cfg).1 else applyLoop fuel (tdceRound cfg).1)
      = (tdceRound cfg).1
    rw [if_pos hd]

/-- Witness for C5, instantiating each conjunct at a concrete CFG. -/
theorem tdce_apply_terminates_witness :
    applyLoop (liveCount cfgA + 1) cfgA = TDCE.Apply cfgA ∧
    liveCount (tdceRound cfgA).1 ≤ liveCount cfgA ∧
    liveCount (tdceRound cfgA).1 < liveCount cfgA ∧
    (rA ∈ cfgDecls cfgA ∨ rA ∈ cfgUses cfgA ∨ rA.kind = K_zero) ∧
    applyLoop 1 ([] : CFG) = (tdceRound ([] : CFG)).1 :=
  ⟨tdce_apply_terminates.1 cfgA (liveCount cfgA + 1) (le_refl _),
   tdce_apply_terminates.2.1 cfgA,
   tdce_apply_terminates.2.2.1 cfgA (by decide),
   tdce_apply_terminates.2.2.2.1 cfgA rA (by decide),
   tdce_apply_terminates.2.2.2.2 [] 0 (by decide)⟩

/-- C3 (amended): in the compaction phase a Phi node is dropped exactly when every
register it declares is the zero sentinel — in particular a Phi with an empty
`Definitions()` list is dropped; an instruction is dropped exactly when it has the
declares capability, declares at least one register, and every declared register
is the sentinel (so instructions without the capability, or with an empty
declared-register list, are kept); and the terminator is always kept. -/
theorem tdce_compact_characterization (bb : BasicBlock) :
    (∀ v, v ∈ bb.Phi → ((v ∉ (phase4Block bb).Phi) ↔ ∀ r ∈ v.defs, r.kind = K_zero)) ∧
    (∀ v, v ∈ bb.Ins → ((v ∉ (phase4Block bb).Ins) ↔
      v.hasDefs = true ∧ v.defs ≠ [] ∧ ∀ r ∈ v.defs, r.kind = K_zero)) ∧
    (phase4Block bb).Term = bb.Term := by
  refine ⟨?_, ?_, rfl⟩
  · intro v hv
    constructor
    · intro hnotin r hr
      by_contra hne
      apply hnotin
      show v ∈ bb.Phi.filter keepPhi
      exact List.mem_filter.mpr ⟨hv, List.any_eq_true.mpr ⟨r, hr, decide_eq_true hne⟩⟩
    · intro hall hin
      have hin' : v ∈ bb.Phi.filter keepPhi := hin
      have hkeep : keepPhi v = true := List.of_mem_filter hin'
      unfold keepPhi at hkeep
      obtain ⟨r, hr, hrk⟩ := List.any_eq_true.mp hkeep
      rw [hall r hr] at hrk
      exact absurd hrk (by decide)
  · intro v hv
    constructor
    · intro hnotin
      have hkeep : keepIns v = false := by
        cases hx : keepIns v
        · rfl
        · exact absurd (show v ∈ bb.Ins.filter keepIns from List.mem_filter.mpr ⟨hv, hx⟩)
            hnotin
      unfold keepIns at hkeep
      rcases Bool.or_eq_false_iff.mp hkeep with ⟨h12, h3⟩
      rcases Bool.or_eq_false_iff.mp h12 with ⟨h1, h2⟩
      refine ⟨?_, ?_, ?_⟩
      · cases hx : v.hasDefs
        · rw [hx] at h1; exact absurd h1 (by decide)
        · rfl
      · intro he
        rw [he] at h2
        exact absurd h2 (by decide)
      · intro r hr
        have hc := List.any_eq_false.mp h3 r hr
        have hc' : ¬ r.kind ≠ K_zero := by simpa using hc
        exact not_not.mp hc'
    · rintro ⟨hd, hne, hall⟩ hin
      have hin' : v ∈ bb.Ins.filter keepIns := hin
      have hk := List.of_mem_filter hin'
      unfold keepIns at hk
      rw [hd] at hk
      simp only [Bool.not_true, Bool.false_or, Bool.or_eq_true] at hk
      rcases hk with hk | hk
      · exact hne (List.isEmpty_iff.mp hk)
      · obtain ⟨r, hr, hrk⟩ := List.any_eq_true.mp hk
        rw [hall r hr] at hrk
        exact absurd hrk (by decide)

/-- Witness for C3's amended theorem on a concrete block. -/
theorem tdce_compact_characterization_witness :
    ((phiLive ∉ (phase4Block bbW).Phi) ↔ ∀ r ∈ phiLive.defs, r.kind = K_zero) ∧
    ((insPure ∉ (phase4Block bbW).Ins) ↔
      insPure.hasDefs = true ∧ insPure.defs ≠ [] ∧ ∀ r ∈ insPure.defs, r.kind = K_zero) ∧
    (phase4Block bbW).Term = bbW.Term :=
  ⟨(tdce_compact_characterization bbW).1 phiLive (by decide),
   (tdce_compact_characterization bbW).2.1 insPure (by decide),
   (tdce_compact_characterization bbW).2.2⟩

/-- C3 counterexample: a Phi node with the declares capability but an empty
declared-register list is dropped by the compaction phase, although the claim
requires every entry with an empty declared-register list to be kept (and its
"dropped iff declares at least one register and all are sentinels" fails, since
this entry declares none). -/
theorem tdce_compact_drops_empty_phi :
    phiEmpty ∉ (phase4Block ⟨[phiEmpty], [], insRet⟩).Phi ∧
    phiEmpty.defs = [] ∧ phiEmpty.hasDefs = true := by
  decide

/-! ## Behaviour of Link / SetLinker -/

theorem foldl_setLinker {Program Encoder : Type} :
    ∀ (vs : List (Option (Program → Encoder))) (st : LinkState Program Encoder),
      (vs.foldl SetLinker st).linker = vs.getLastD st.linker := by
  intro vs
  induction vs with
  | nil => intro st; rfl
  | cons v vs ih =>
    intro st
    rw [List.foldl_cons, ih, List.getLastD_cons]
    rfl

/-- C9: `Link p` delegates to the installed linker when one is present and falls
back to the interpreter-backed `link_emu p` when none is. -/
theorem link_dispatch {Program Encoder : Type} (env : LinkEnv Program Encoder)
    (st : LinkState Program Encoder) (p : Program) :
    (∀ l, st.linker = some l → Link env st p = l p) ∧
    (st.linker = none → Link env st p = env.link_emu p) := by
  constructor
  · intro l hl
    unfold Link
    rw [hl]
  · intro hl
    unfold Link
    rw [hl]

/-- Witness for C9 with `Program = Encoder = Nat`: an installed linker is used,
and with none installed the fallback is used. -/
theorem link_dispatch_witness :
    Link ⟨fun p => p + 1⟩ ⟨some fun p => p * 2⟩ 3 = (fun p : Nat => p * 2) 3 ∧
    Link (⟨fun p => p + 1⟩ : LinkEnv Nat Nat) ⟨none⟩ 3 =
      (⟨fun p => p + 1⟩ : LinkEnv Nat Nat).link_emu 3 :=
  ⟨(link_dispatch ⟨fun p => p + 1⟩ ⟨some fun p => p * 2⟩ 3).1 (fun p => p * 2) rfl,
   (link_dispatch ⟨fun p => p + 1⟩ ⟨none⟩ 3).2 rfl⟩

/-- C10: `SetLinker` is total — any number of calls, at any point, `nil` included —
and `Link` consults the most recently installed value: after a call sequence the
stored linker is the last argument (`none` if there were no calls), `Link`
delegates exactly when that last argument was non-nil, and a final
`SetLinker nil` restores the interpreter fallback. -/
theorem setLinker_last_wins {Program Encoder : Type} (env : LinkEnv Program Encoder)
    (vs : List (Option (Program → Encoder))) (p : Program) :
    (vs.foldl SetLinker ⟨none⟩).linker = vs.getLastD none ∧
    (∀ f, vs.getLastD none = some f → Link env (vs.foldl SetLinker ⟨none⟩) p = f p) ∧
    (vs.getLastD none = none → Link env (vs.foldl SetLinker ⟨none⟩) p = env.link_emu p) := by
  have hst : (vs.foldl SetLinker ⟨none⟩).linker = vs.getLastD none := foldl_setLinker vs ⟨none⟩
  refine ⟨hst, ?_, ?_⟩
  · intro f hf
    unfold Link
    rw [hst, hf]
  · intro hf
    unfold Link
    rw [hst, hf]

/-- Witness for C10: installing a linker and then `nil` restores the fallback. -/
theorem setLinker_last_wins_witness :
    (([some fun p => p * 2, none] :
        List (Option (Nat → Nat))).foldl SetLinker ⟨none⟩).linker
      = ([some fun p => p * 2, none] : List (Option (Nat → Nat))).getLastD none ∧
    Link ⟨fun p => p + 1⟩
        (([some fun p => p * 2, none] : List (Option (Nat → Nat))).foldl SetLinker ⟨none⟩) 3
      = (⟨fun p => p + 1⟩ : LinkEnv Nat Nat).link_emu 3 :=
  ⟨(setLinker_last_wins ⟨fun p => p + 1⟩ [some fun p => p * 2, none] 3).1,
   (setLinker_last_wins ⟨fun p => p + 1⟩ [some fun p => p * 2, none] 3).2.2 rfl⟩
